import Mathlib

/-!
Verification development for the `tracing-stackdriver` crate: a shallow
embedding of the event-to-JSON projection (field classification, severity
derivation and override, span serialization, cloud-trace entries, and the
fmt/io write adaptor), with theorems settling the specification claims.

Sources embedded:
* `src/google.rs` — `LogSeverity`, `From<&Level>`, `FromStr`, `From<serde_json::Value>`
* `src/visitor.rs` — `StackdriverEventVisitor` (`Visit` recording into a
  `BTreeMap` keyed by raw field name, and `finish`)
* `src/layer.rs` — `SerializableSpan::serialize` and the opentelemetry
  trace-entry block of `StackdriverEventFormatter::format_event`
* `src/writer.rs` — `io::Write for WriteAdaptor`

The repository snapshot mixes historical revisions: `src/src/visitor.rs`
holds a revision of `StackdriverEventVisitor` whose constructor takes only a
serializer and whose `finish` classifies only `http_request.*` keys, while
its caller `src/src/layer.rs` line 300 invokes a two-argument constructor
`StackdriverEventVisitor::new(severity, map)`.  The visitor revision that
handles the `severity` override and `labels.*` routing is therefore missing
from `src/`; where a claim depends on it, the behaviour is modelled from the
spec (definitions marked `Modelled from the spec:`).
-/

/-- JSON values as produced by the default-feature build of the crate: the
`Visit` impl records i64/u64 (both embedded in `Int` here), bools, strings,
and debug-formatted strings; nested objects arise from the `httpRequest` and
`labels` buckets.  Floats and arrays are unreachable in the embedded paths
(the snapshot visitor has no `record_f64`, and `record_value` is behind the
`valuable` feature). -/
inductive JValue where
  | bool (b : Bool)
  | int (n : Int)
  | str (s : String)
  | obj (fields : List (String × JValue))

/-- ASCII lower-casing of a single character.  Models the behaviour of
Rust's `char` lowercasing and of the `Inflector` case engine on the ASCII
range (full Unicode case mapping agrees with this on all ASCII input). -/
def asciiLower : Char → Char
  | 'A' => 'a' | 'B' => 'b' | 'C' => 'c' | 'D' => 'd' | 'E' => 'e' | 'F' => 'f'
  | 'G' => 'g' | 'H' => 'h' | 'I' => 'i' | 'J' => 'j' | 'K' => 'k' | 'L' => 'l'
  | 'M' => 'm' | 'N' => 'n' | 'O' => 'o' | 'P' => 'p' | 'Q' => 'q' | 'R' => 'r'
  | 'S' => 's' | 'T' => 't' | 'U' => 'u' | 'V' => 'v' | 'W' => 'w' | 'X' => 'x'
  | 'Y' => 'y' | 'Z' => 'z'
  | c => c

/-- ASCII upper-casing of a single character (see `asciiLower`). -/
def asciiUpper : Char → Char
  | 'a' => 'A' | 'b' => 'B' | 'c' => 'C' | 'd' => 'D' | 'e' => 'E' | 'f' => 'F'
  | 'g' => 'G' | 'h' => 'H' | 'i' => 'I' | 'j' => 'J' | 'k' => 'K' | 'l' => 'L'
  | 'm' => 'M' | 'n' => 'N' | 'o' => 'O' | 'p' => 'P' | 'q' => 'Q' | 'r' => 'R'
  | 's' => 'S' | 't' => 'T' | 'u' => 'U' | 'v' => 'V' | 'w' => 'W' | 'x' => 'X'
  | 'y' => 'Y' | 'z' => 'Z'
  | c => c

/-- Models `str::to_lowercase` as used by `LogSeverity::from_str`
(`src/google.rs` line 68); coincides with Rust on ASCII input. -/
def lowerString (s : String) : String :=
  String.mk (s.data.map asciiLower)

/-- Word accumulator for the camelCase conversion: splits the character
stream at non-alphanumeric separators and at transitions into an uppercase
letter, mirroring the `Inflector::to_camel_case` case engine used at
`src/visitor.rs` lines 42 and 46.  `cur` is the current word, reversed. -/
def camelWordsAux : List Char → List Char → List (List Char)
  | [], cur => if cur.isEmpty then [] else [cur.reverse]
  | c :: rest, cur =>
    if !c.isAlphanum then
      if cur.isEmpty then camelWordsAux rest [] else cur.reverse :: camelWordsAux rest []
    else if c.isUpper && !cur.isEmpty && !(cur.headD 'A').isUpper then
      cur.reverse :: camelWordsAux rest [c]
    else
      camelWordsAux rest (c :: cur)

/-- Capitalizes one word: first character upper-cased, the rest lower-cased. -/
def capitalizeWord : List Char → List Char
  | [] => []
  | c :: cs => asciiUpper c :: cs.map asciiLower

/-- Models `Inflector::to_camel_case`: the first word fully lower-cased, every
following word capitalized, all separators dropped. -/
def toCamelCase (s : String) : String :=
  match camelWordsAux s.data [] with
  | [] => ""
  | w :: ws => String.mk (w.map asciiLower ++ (ws.map capitalizeWord).flatten)

/-- Characters after the first `'.'`, or `[]` when none occurs. -/
def afterFirstDot : List Char → List Char
  | [] => []
  | c :: rest => if c = '.' then rest else afterFirstDot rest

/-- Models `key.splitn(2, '.').last().unwrap()` (`src/visitor.rs` line 41):
the part after the first dot when a dot occurs, else the whole key. -/
def splitn2Last (key : String) : String :=
  if key.data.contains '.' then String.mk (afterFirstDot key.data) else key

/-- Sorted-association-list model of `std::collections::BTreeMap` insertion:
keeps keys strictly ascending, replacing the value on an existing key. -/
def insertBTree {α : Type} (k : String) (v : α) : List (String × α) → List (String × α)
  | [] => [(k, v)]
  | (k₂, v₂) :: rest =>
    if k < k₂ then (k, v) :: (k₂, v₂) :: rest
    else if k = k₂ then (k, v) :: rest
    else (k₂, v₂) :: insertBTree k v rest

/-- First-match association lookup (on a sorted map, the only match). -/
def lookupB {α : Type} (k : String) : List (String × α) → Option α
  | [] => none
  | (k₂, v) :: rest => if k = k₂ then some v else lookupB k rest

/-- Value of the last entry carrying key `k`, per list order. -/
def lastLookup {α : Type} (k : String) : List (String × α) → Option α
  | [] => none
  | (k₂, v) :: rest =>
    match lastLookup k rest with
    | some w => some w
    | none => if k = k₂ then some v else none

/-- Sortedness invariant of the `BTreeMap` model: keys strictly ascending. -/
def SortedMap {α : Type} (m : List (String × α)) : Prop :=
  List.Pairwise (fun a b => a.1 < b.1) m

/-- The severity enumeration of `src/google.rs` (`LogSeverity`). -/
inductive LogSeverity where
  | Default | Debug | Info | Notice | Warning | Error | Critical | Alert | Emergency
deriving DecidableEq

/-- SCREAMING_SNAKE_CASE serialization of `LogSeverity` (the serde rename at
`src/google.rs` line 12, identical to its `Display` impl at lines 35-51). -/
def LogSeverity.serialized : LogSeverity → String
  | .Default => "DEFAULT"
  | .Debug => "DEBUG"
  | .Info => "INFO"
  | .Notice => "NOTICE"
  | .Warning => "WARNING"
  | .Error => "ERROR"
  | .Critical => "CRITICAL"
  | .Alert => "ALERT"
  | .Emergency => "EMERGENCY"

/-- The `tracing_core::Level` values. -/
inductive Level where
  | trace | debug | info | warn | error
deriving DecidableEq

/-- Embeds `impl From<&Level> for LogSeverity` (`src/google.rs` lines 53-62). -/
def LogSeverity.fromLevel : Level → LogSeverity
  | .debug | .trace => .Debug
  | .info => .Info
  | .warn => .Warning
  | .error => .Error

/-- Model of `std::convert::Infallible`: an uninhabited error type. -/
inductive Infallible where

/-- Recognized-name table of the `from_str` match (`src/google.rs` lines
68-78), applied to the already lower-cased input. -/
def severityName : String → LogSeverity
  | "debug" | "trace" => .Debug
  | "info" => .Info
  | "notice" => .Notice
  | "warn" | "warning" => .Warning
  | "error" => .Error
  | "critical" => .Critical
  | "alert" => .Alert
  | "emergency" => .Emergency
  | _ => .Default

/-- Embeds `impl FromStr for LogSeverity` (`src/google.rs` lines 64-82):
lower-case the input and match the recognized names, anything else mapping
to `Default`; the error type is `Infallible`. -/
def LogSeverity.fromStr (s : String) : Except Infallible LogSeverity :=
  Except.ok (severityName (lowerString s))

/-- Embeds `impl From<serde_json::Value> for LogSeverity` (`src/google.rs`
lines 84-101), default feature set: a string value is parsed with
`from_str` (falling back to `Default` per `unwrap_or`), anything else is
`Default`.  The single-key-object branch is behind the `valuable` feature
and is not part of the default build. -/
def severityOfValue : JValue → LogSeverity
  | .str s =>
    match LogSeverity.fromStr s with
    | .ok v => v
    | .error _ => .Default
  | _ => .Default

/-- Typed field values pushed by the host through the `Visit` callbacks
(`src/visitor.rs` lines 66-103): `record_i64`, `record_u64`, `record_bool`,
`record_str`, and `record_debug` (the latter receiving the already
debug-formatted text). -/
inductive FieldValue where
  | i64 (n : Int)
  | u64 (n : Nat)
  | bool (b : Bool)
  | str (s : String)
  | debug (s : String)
deriving DecidableEq

/-- JSON value each `Visit` method stores (`serde_json::Value::from(...)`,
with `record_debug` storing the formatted text). -/
def FieldValue.toJson : FieldValue → JValue
  | .i64 n => .int n
  | .u64 n => .int n
  | .bool b => .bool b
  | .str s => .str s
  | .debug s => .str s

/-- Accumulated visitor state after a sequence of `Visit` callbacks: each
call does `self.values.insert(field.name(), value)` into the `BTreeMap`
(`src/visitor.rs` lines 13-16 and 66-103). -/
def visitorMap (recorded : List (String × FieldValue)) : List (String × JValue) :=
  recorded.foldl (fun m kv => insertBTree kv.1 kv.2.toJson m) []

/-- Models `str::starts_with` on the embedded strings: the pattern's
characters are a prefix of the key's. -/
def startsWithKey (key p : String) : Bool :=
  p.data.isPrefixOf key.data

/-- Output shape of `StackdriverEventVisitor::finish` (`src/visitor.rs`
lines 35-63): entries serialized directly at the top level, in emission
order, plus the nested `httpRequest` bucket. -/
structure SrcOutput where
  topLevel : List (String × JValue)
  httpRequest : List (String × JValue)

/-- One step of the loop in `finish`: a key starting with `http_request.`
sends its camelCased remainder into the `httpRequest` bucket, any other key
is camelCased and serialized at the top level. -/
def finishSrcStep (acc : SrcOutput) (kv : String × JValue) : SrcOutput :=
  if startsWithKey kv.1 "http_request." then
    { acc with httpRequest := insertBTree (toCamelCase (splitn2Last kv.1)) kv.2 acc.httpRequest }
  else
    { acc with topLevel := acc.topLevel ++ [(toCamelCase kv.1, kv.2)] }

/-- Embeds `StackdriverEventVisitor::finish` (`src/visitor.rs` lines 35-63)
applied to the accumulated `values` map. -/
def finishSrc (values : List (String × JValue)) : SrcOutput :=
  values.foldl finishSrcStep ⟨[], []⟩

/-- The `httpRequest` entry, present only when the bucket is non-empty
(`src/visitor.rs` lines 50-53). -/
def httpEntrySrc (o : SrcOutput) : Option (String × JValue) :=
  if o.httpRequest.isEmpty then none else some ("httpRequest", .obj o.httpRequest)

/-- Full entry sequence written by `finish`: top-level entries in loop
order, then the conditional `httpRequest` entry. -/
def emitSrc (o : SrcOutput) : List (String × JValue) :=
  o.topLevel ++ (httpEntrySrc o).toList

/-- JSON object denoted by an emitted entry sequence under the last-wins
duplicate-key semantics of JSON parsing (what `serde_json`'s parser — used
by the crate's own tests to read the output back — applies). -/
def emittedObject (entries : List (String × JValue)) : List (String × JValue) :=
  entries.foldl (fun m kv => insertBTree kv.1 kv.2 m) []

mutual

/-- JSON text rendering of a value, modelling the `Display` form used to
stringify non-string label values (`serde_json::Value::to_string`); string
escaping is modelled for quotes and backslashes. -/
def renderJson : JValue → String
  | .bool true => "true"
  | .bool false => "false"
  | .int n => toString n
  | .str s => "\"" ++ escapeChars s.data ++ "\""
  | .obj fs => "\x7b" ++ renderObj fs ++ "\x7d"

/-- Comma-joined rendering of object entries. -/
def renderObj : List (String × JValue) → String
  | [] => ""
  | [(k, v)] => "\"" ++ escapeChars k.data ++ "\":" ++ renderJson v
  | (k, v) :: rest => "\"" ++ escapeChars k.data ++ "\":" ++ renderJson v ++ "," ++ renderObj rest

/-- Backslash-escaping of quote and backslash characters. -/
def escapeChars : List Char → String
  | [] => ""
  | c :: rest =>
    (if c = '"' then "\\\"" else if c = '\\' then "\\\\" else String.mk [c]) ++ escapeChars rest

end

/-- String stored for a `labels.*` field value: a string value is stored
as-is, any other value is stringified via its display form. -/
def stringifyLabel : JValue → String
  | .str s => s
  | v => renderJson v

/-- Field buckets of the full classifier: top-level entries in emission
order, the nested `httpRequest` object, and the string-valued `labels`
object. -/
structure FieldBuckets where
  topLevel : List (String × JValue)
  httpRequest : List (String × JValue)
  labels : List (String × String)

/-- Classified per-event output with the severity resolved (the structure
the spec's Field Classifier and Severity Mapper produce together). -/
structure ClassifiedOutput where
  severity : LogSeverity
  buckets : FieldBuckets

/-- Modelled from the spec: one classification step of the full field
classifier, whose implementation is missing from `src/` (the visitor
revision in `src/src/visitor.rs` routes only `http_request.*`; its caller
`src/src/layer.rs` line 300 passes `severity` to a two-argument visitor
constructor that `src/` does not contain).  Per the key-splitting rule: a
`http_request.`-prefixed key nests its camelCased remainder inside the
`httpRequest` object; a `labels.`-prefixed key nests its remainder inside
the `labels` object with the value stored as a string; any other key is
camelCased and emitted at the top level. -/
def classifyStep (acc : FieldBuckets) (kv : String × JValue) : FieldBuckets :=
  if startsWithKey kv.1 "http_request." then
    { acc with httpRequest := insertBTree (toCamelCase (splitn2Last kv.1)) kv.2 acc.httpRequest }
  else if startsWithKey kv.1 "labels." then
    { acc with labels := insertBTree (splitn2Last kv.1) (stringifyLabel kv.2) acc.labels }
  else
    { acc with topLevel := acc.topLevel ++ [(toCamelCase kv.1, kv.2)] }

/-- Modelled from the spec: the classifier folds over the event's fields
with the `severity` field removed from the field set (see `classifyFields`). -/
def classifyBuckets (values : List (String × JValue)) : FieldBuckets :=
  (values.filter (fun kv => kv.1 != "severity")).foldl classifyStep ⟨[], [], []⟩

/-- Modelled from the spec: severity precedence — a field named `severity`
wins outright via the parsed override, otherwise the level-derived value is
used. -/
def resolveSeverity (levelSeverity : LogSeverity) (values : List (String × JValue)) :
    LogSeverity :=
  match lookupB "severity" values with
  | some v => severityOfValue v
  | none => levelSeverity

/-- Modelled from the spec: severity precedence and field classification
over the visitor's accumulated map (missing from `src/`, see
`classifyStep`).  When the fields contain a key named `severity`, its
parsed value wins outright and the field is removed from the emitted field
set; otherwise the level-derived severity is used. -/
def classifyFields (levelSeverity : LogSeverity) (values : List (String × JValue)) :
    ClassifiedOutput :=
  ⟨resolveSeverity levelSeverity values, classifyBuckets values⟩

/-- The conditional `httpRequest` entry of the classified output. -/
def httpEntry (c : ClassifiedOutput) : Option (String × JValue) :=
  if c.buckets.httpRequest.isEmpty then none
  else some ("httpRequest", .obj c.buckets.httpRequest)

/-- The conditional `labels` entry of the classified output. -/
def labelsEntry (c : ClassifiedOutput) : Option (String × JValue) :=
  if c.buckets.labels.isEmpty then none
  else some ("labels", .obj (c.buckets.labels.map (fun p => (p.1, JValue.str p.2))))

/-- Modelled from the spec: emission order of the classifier output —
`severity` first, then the top-level entries, then `httpRequest` if
non-empty, then the labels object if non-empty. -/
def emitClassified (c : ClassifiedOutput) : List (String × JValue) :=
  ("severity", JValue.str c.severity.serialized) :: c.buckets.topLevel
    ++ (httpEntry c).toList ++ (labelsEntry c).toList

/-- Per-span distributed-trace data read from the span's extension bag in
`src/layer.rs` lines 270-296: the builder's optional span and trace ids and
the parent context (whether it has an active span, and that span's trace id
and sampled flag). -/
structure OtelData where
  builderSpanId : Option String
  builderTraceId : Option String
  parentHasActiveSpan : Bool
  parentTraceId : String
  parentSampled : Bool

/-- Embeds the trace-id selection of `src/layer.rs` lines 279-285: the
active remote parent context wins, otherwise the builder's trace id with
the sampled flag forced to false. -/
def selectTrace (o : OtelData) : Option String × Bool :=
  if o.parentHasActiveSpan then (some o.parentTraceId, o.parentSampled)
  else (o.builderTraceId, false)

/-- Embeds the trace-entry block of `StackdriverEventFormatter::format_event`
(`src/layer.rs` lines 270-296): the `spanId` entry when the builder has a
span id, the `trace` entry when both a trace id and a project id are
available, and the `trace_sampled` entry only when sampled. -/
def traceEntries (projectId : Option String) (o : OtelData) : List (String × JValue) :=
  (match o.builderSpanId with
    | some sid => [("logging.googleapis.com/spanId", JValue.str sid)]
    | none => [])
  ++ (match (selectTrace o).1, projectId with
    | some t, some p =>
      [("logging.googleapis.com/trace", JValue.str ("projects/" ++ p ++ "/traces/" ++ t))]
    | _, _ => [])
  ++ (if (selectTrace o).2 then [("logging.googleapis.com/trace_sampled", JValue.bool true)]
    else [])

/-- Embeds `impl Serialize for SerializableSpan` (`src/layer.rs` lines
39-73) after the pre-rendered field buffer has been parsed by
`serde_json::from_str`: an object yields its entries in parsed order
followed by the `name` entry; any other parse result panics (modelled as
`none`). -/
def spanSerialize (parsed : JValue) (name : String) : Option (List (String × JValue)) :=
  match parsed with
  | .obj fields => some (fields ++ [("name", JValue.str name)])
  | _ => none

/-- The `std::io::ErrorKind` values reachable from `WriteAdaptor::write`. -/
inductive IoErrorKind where
  | invalidData
  | other
deriving DecidableEq

/-- Result of one `WriteAdaptor::write` call: the inner `fmt::Write` state
(bytes forwarded so far) and the returned `io::Result<usize>`. -/
structure WriteResult where
  inner : List UInt8
  result : Except IoErrorKind Nat

/-- Continuation-byte check (`0x80..=0xBF`). -/
def isCont (b : UInt8) : Bool :=
  0x80 ≤ b && b ≤ 0xBF

/-- UTF-8 validation of a byte sequence, transcribing the byte-range table
enforced by Rust's `std::str::from_utf8` (`core::str` validation): ASCII,
two-byte `C2..DF`, three-byte `E0/E1..EC/ED/EE..EF` with their second-byte
ranges, and four-byte `F0/F1..F3/F4` with theirs. -/
def utf8Valid : List UInt8 → Bool
  | [] => true
  | b :: rest =>
    if b ≤ 0x7F then utf8Valid rest
    else if 0xC2 ≤ b && b ≤ 0xDF then
      match rest with
      | b2 :: rest₂ => isCont b2 && utf8Valid rest₂
      | [] => false
    else if 0xE0 ≤ b && b ≤ 0xEF then
      match rest with
      | b2 :: b3 :: rest₃ =>
        (if b = 0xE0 then 0xA0 ≤ b2 && b2 ≤ 0xBF
          else if b = 0xED then 0x80 ≤ b2 && b2 ≤ 0x9F
          else isCont b2)
          && isCont b3 && utf8Valid rest₃
      | _ => false
    else if 0xF0 ≤ b && b ≤ 0xF4 then
      match rest with
      | b2 :: b3 :: b4 :: rest₄ =>
        (if b = 0xF0 then 0x90 ≤ b2 && b2 ≤ 0xBF
          else if b = 0xF4 then 0x80 ≤ b2 && b2 ≤ 0x8F
          else isCont b2)
          && isCont b3 && isCont b4 && utf8Valid rest₄
      | _ => false
    else false

/-- Embeds `impl io::Write for WriteAdaptor` (`src/writer.rs` lines 18-33):
a valid UTF-8 buffer is forwarded to the inner `fmt::Write` (which is
zero-copy, so the forwarded string's bytes are the buffer and the returned
`s.as_bytes().len()` is the buffer length); an invalid buffer produces an
`InvalidData` error before anything reaches the inner writer.  The inner
`fmt::Write` is modelled as an infallible byte accumulator. -/
def writeAdaptorWrite (inner : List UInt8) (buf : List UInt8) : WriteResult :=
  if utf8Valid buf then ⟨inner ++ buf, .ok buf.length⟩
  else ⟨inner, .error .invalidData⟩

/-! Helper lemmas about the camelCase conversion and the sorted-map model. -/

theorem asciiLower_ne_dot (c : Char) (h : c.isAlphanum = true) : asciiLower c ≠ '.' := by
  unfold asciiLower
  split <;> try decide
  intro hc
  subst hc
  exact absurd h (by decide)

theorem asciiUpper_ne_dot (c : Char) (h : c.isAlphanum = true) : asciiUpper c ≠ '.' := by
  unfold asciiUpper
  split <;> try decide
  intro hc
  subst hc
  exact absurd h (by decide)

theorem camelWordsAux_alnum (cs : List Char) (cur : List Char)
    (hcur : ∀ c ∈ cur, c.isAlphanum = true) :
    ∀ w ∈ camelWordsAux cs cur, ∀ c ∈ w, c.isAlphanum = true := by
  induction cs generalizing cur with
  | nil =>
    intro w hw c hc
    unfold camelWordsAux at hw
    split at hw
    · simp at hw
    · simp at hw
      subst hw
      exact hcur c (List.mem_reverse.mp hc)
  | cons b rest ih =>
    intro w hw c hc
    unfold camelWordsAux at hw
    split at hw
    · split at hw
      · exact ih [] (by simp) w hw c hc
      · rcases List.mem_cons.mp hw with h | h
        · subst h
          exact hcur c (List.mem_reverse.mp hc)
        · exact ih [] (by simp) w h c hc
    · rename_i hb
      split at hw
      · rename_i hcond
        rcases List.mem_cons.mp hw with h | h
        · subst h
          exact hcur c (List.mem_reverse.mp hc)
        · refine ih [b] ?_ w h c hc
          intro c' hc'
          simp at hc'
          subst hc'
          simpa using hb
      · refine ih (b :: cur) ?_ w hw c hc
        intro c' hc'
        rcases List.mem_cons.mp hc' with h | h
        · subst h
          simpa using hb
        · exact hcur c' h

theorem toCamelCase_no_dot (s : String) : '.' ∉ (toCamelCase s).data := by
  unfold toCamelCase
  split
  · simp [String.mk]
  · rename_i w ws heq
    intro hmem
    have halnum := camelWordsAux_alnum s.data [] (by simp)
    rw [heq] at halnum
    simp only [String.mk] at hmem
    rcases List.mem_append.mp hmem with h | h
    · rcases List.mem_map.mp h with ⟨c, hc, hlc⟩
      exact asciiLower_ne_dot c (halnum w (by simp) c hc) hlc
    · rcases List.mem_flatten.mp h with ⟨l, hl, hcl⟩
      rcases List.mem_map.mp hl with ⟨w', hw', hcap⟩
      subst hcap
      have hw'mem : w' ∈ w :: ws := List.mem_cons_of_mem _ hw'
      have halnum' := halnum w' hw'mem
      cases w' with
      | nil => simp [capitalizeWord] at hcl
      | cons c0 cs0 =>
        simp only [capitalizeWord] at hcl
        rcases List.mem_cons.mp hcl with h0 | h0
        · exact asciiUpper_ne_dot c0 (halnum' c0 (by simp)) h0.symm
        · rcases List.mem_map.mp h0 with ⟨c, hc, hlc⟩
          exact asciiLower_ne_dot c (halnum' c (by simp [hc])) hlc

theorem lookupB_insert_self {α : Type} (k : String) (v : α) (m : List (String × α)) :
    lookupB k (insertBTree k v m) = some v := by
  induction m with
  | nil => simp [insertBTree, lookupB]
  | cons p rest ih =>
    obtain ⟨k₂, v₂⟩ := p
    unfold insertBTree
    split
    · simp [lookupB]
    · split
      · simp [lookupB]
      · rename_i h1 h2
        simp [lookupB, h2, ih]

theorem lookupB_insert_ne {α : Type} (k k₁ : String) (v : α) (m : List (String × α))
    (h : k ≠ k₁) : lookupB k (insertBTree k₁ v m) = lookupB k m := by
  induction m with
  | nil => simp [insertBTree, lookupB, h]
  | cons p rest ih =>
    obtain ⟨k₂, v₂⟩ := p
    unfold insertBTree
    split
    · simp [lookupB, h]
    · split
      · rename_i h1 h2
        subst h2
        simp [lookupB, h]
      · simp [lookupB, ih]

theorem mem_insertBTree {α : Type} (k : String) (v : α) (m : List (String × α))
    (p : String × α) (h : p ∈ insertBTree k v m) : p = (k, v) ∨ p ∈ m := by
  induction m with
  | nil => simp [insertBTree] at h; simp [h]
  | cons q rest ih =>
    obtain ⟨k₂, v₂⟩ := q
    unfold insertBTree at h
    split at h
    · rcases List.mem_cons.mp h with rfl | h
      · left; rfl
      · right; exact h
    · split at h
      · rcases List.mem_cons.mp h with rfl | h
        · left; rfl
        · right; exact List.mem_cons_of_mem _ h
      · rcases List.mem_cons.mp h with rfl | h
        · right; exact List.mem_cons_self _ _
        · rcases ih h with h | h
          · left; exact h
          · right; exact List.mem_cons_of_mem _ h

theorem sortedMap_insert {α : Type} (k : String) (v : α) (m : List (String × α))
    (h : SortedMap m) : SortedMap (insertBTree k v m) := by
  induction m with
  | nil => simp [insertBTree, SortedMap]
  | cons p rest ih =>
    obtain ⟨k₂, v₂⟩ := p
    unfold SortedMap at h
    rw [List.pairwise_cons] at h
    obtain ⟨hhead, htail⟩ := h
    unfold insertBTree
    split
    · rename_i hlt
      unfold SortedMap
      rw [List.pairwise_cons]
      constructor
      · intro a ha
        rcases List.mem_cons.mp ha with rfl | ha
        · exact hlt
        · exact lt_trans hlt (hhead a ha)
      · rw [List.pairwise_cons]
        exact ⟨hhead, htail⟩
    · split
      · rename_i h1 h2
        subst h2
        unfold SortedMap
        rw [List.pairwise_cons]
        exact ⟨hhead, htail⟩
      · rename_i h1 h2
        have hgt : k₂ < k := by
          rcases lt_trichotomy k k₂ with h | h | h
          · exact absurd h h1
          · exact absurd h h2
          · exact h
        unfold SortedMap
        rw [List.pairwise_cons]
        constructor
        · intro a ha
          rcases mem_insertBTree k v rest a ha with rfl | ha
          · exact hgt
          · exact hhead a ha
        · exact ih htail


theorem lookupB_mem {α : Type} (k : String) (v : α) (m : List (String × α))
    (h : lookupB k m = some v) : (k, v) ∈ m := by
  induction m with
  | nil => simp [lookupB] at h
  | cons p rest ih =>
    obtain ⟨k₂, v₂⟩ := p
    unfold lookupB at h
    split at h
    · rename_i heq
      subst heq
      simp at h
      subst h
      exact List.mem_cons_self _ _
    · exact List.mem_cons_of_mem _ (ih h)

theorem mem_lookupB {α : Type} (k : String) (v : α) (m : List (String × α))
    (hs : SortedMap m) (h : (k, v) ∈ m) : lookupB k m = some v := by
  induction m with
  | nil => simp at h
  | cons p rest ih =>
    obtain ⟨k₂, v₂⟩ := p
    unfold SortedMap at hs
    rw [List.pairwise_cons] at hs
    obtain ⟨hhead, htail⟩ := hs
    rcases List.mem_cons.mp h with heq | h
    · rw [Prod.mk.injEq] at heq
      obtain ⟨rfl, rfl⟩ := heq
      simp [lookupB]
    · have hne : k ≠ k₂ := by
        intro heq
        have hlt := hhead (k, v) h
        rw [heq] at hlt
        exact absurd hlt (lt_irrefl _)
      simp [lookupB, hne]
      exact ih htail h

theorem lastLookup_cons {α : Type} (k k₂ : String) (v : α) (rest : List (String × α)) :
    lastLookup k ((k₂, v) :: rest)
      = match lastLookup k rest with
        | some w => some w
        | none => if k = k₂ then some v else none := rfl

theorem lookupB_foldl_insert {α β : Type} (f : β → α) (k : String)
    (l : List (String × β)) (m : List (String × α)) :
    lookupB k (l.foldl (fun acc kv => insertBTree kv.1 (f kv.2) acc) m)
      = match lastLookup k l with
        | some v => some (f v)
        | none => lookupB k m := by
  induction l generalizing m with
  | nil => simp [lastLookup]
  | cons p rest ih =>
    obtain ⟨k₂, v₂⟩ := p
    rw [List.foldl_cons, ih, lastLookup_cons]
    rcases hcase : lastLookup k rest with _ | w
    · by_cases hk : k = k₂
      · subst hk
        simp [lookupB_insert_self]
      · simp [hk, lookupB_insert_ne k k₂ _ _ hk]
    · simp

theorem sortedMap_foldl_insert {α β : Type} (f : β → α) (l : List (String × β))
    (m : List (String × α)) (hs : SortedMap m) :
    SortedMap (l.foldl (fun acc kv => insertBTree kv.1 (f kv.2) acc) m) := by
  induction l generalizing m with
  | nil => exact hs
  | cons p rest ih =>
    rw [List.foldl_cons]
    exact ih _ (sortedMap_insert _ _ _ hs)

theorem insertBTree_comm {α : Type} (k₁ k₂ : String) (v₁ v₂ : α) (m : List (String × α))
    (h : k₁ ≠ k₂) :
    insertBTree k₁ v₁ (insertBTree k₂ v₂ m) = insertBTree k₂ v₂ (insertBTree k₁ v₁ m) := by
  induction m with
  | nil =>
    simp only [insertBTree]
    rcases lt_trichotomy k₁ k₂ with hlt | heq | hgt
    · simp [insertBTree, hlt, not_lt_of_lt hlt, h, h.symm, ne_of_gt hlt]
    · exact absurd heq h
    · simp [insertBTree, hgt, not_lt_of_lt hgt, h, h.symm, ne_of_gt hgt]
  | cons p rest ih =>
    obtain ⟨k₃, v₃⟩ := p
    by_cases h13 : k₁ = k₃ <;> by_cases h23 : k₂ = k₃
    · exact absurd (h13.trans h23.symm) h
    · subst h13
      rcases lt_trichotomy k₂ k₁ with hlt | heq | hgt
      · simp [insertBTree, hlt, not_lt_of_lt hlt, h, h.symm, h23, lt_irrefl]
      · exact absurd heq.symm h
      · simp [insertBTree, hgt, not_lt_of_lt hgt, h, h.symm, h23, lt_irrefl]
    · subst h23
      rcases lt_trichotomy k₁ k₂ with hlt | heq | hgt
      · simp [insertBTree, hlt, not_lt_of_lt hlt, h, h.symm, h13, lt_irrefl]
      · exact absurd heq h
      · simp [insertBTree, hgt, not_lt_of_lt hgt, h, h.symm, h13, lt_irrefl]
    · rcases lt_trichotomy k₁ k₃ with hlt1 | heq1 | hgt1
      · rcases lt_trichotomy k₂ k₃ with hlt2 | heq2 | hgt2
        · rcases lt_trichotomy k₁ k₂ with hlt | heq | hgt
          · simp [insertBTree, hlt1, hlt2, hlt, not_lt_of_lt hlt, h, h.symm]
          · exact absurd heq h
          · simp [insertBTree, hlt1, hlt2, hgt, not_lt_of_lt hgt, h, h.symm]
        · exact absurd heq2 h23
        · simp [insertBTree, hlt1, hgt2, not_lt_of_lt hgt2, h23,
            not_lt_of_lt (lt_trans hlt1 hgt2), h, h.symm]
      · exact absurd heq1 h13
      · rcases lt_trichotomy k₂ k₃ with hlt2 | heq2 | hgt2
        · simp [insertBTree, hgt1, hlt2, not_lt_of_lt hgt1, h13,
            not_lt_of_lt (lt_trans hlt2 hgt1), h, h.symm]
        · exact absurd heq2 h23
        · simp [insertBTree, hgt1, hgt2, not_lt_of_lt hgt1, not_lt_of_lt hgt2, h13, h23, ih]

theorem afterFirstDot_nodot_append (ps : List Char) (xs : List Char)
    (h : '.' ∉ ps) : afterFirstDot (ps ++ '.' :: xs) = xs := by
  induction ps with
  | nil => simp [afterFirstDot]
  | cons c rest ih =>
    have hc : c ≠ '.' := by
      intro heq
      subst heq
      exact h (List.mem_cons_self _ _)
    simp only [List.cons_append, afterFirstDot, if_neg (fun hh => hc hh)]
    exact ih (fun hm => h (List.mem_cons_of_mem _ hm))

theorem splitn2Last_http (X : String) : splitn2Last ("http_request." ++ X) = X := by
  unfold splitn2Last
  rw [String.data_append]
  have hdata : ("http_request.").data = ("http_request").data ++ ['.'] := by decide
  rw [hdata]
  have hcontains : (("http_request").data ++ ['.'] ++ X.data).contains '.' = true := by
    simp [List.contains_eq_any_beq]
  rw [if_pos hcontains]
  rw [List.append_assoc, List.singleton_append,
    afterFirstDot_nodot_append _ _ (by decide)]

theorem splitn2Last_labels (X : String) : splitn2Last ("labels." ++ X) = X := by
  unfold splitn2Last
  rw [String.data_append]
  have hdata : ("labels.").data = ("labels").data ++ ['.'] := by decide
  rw [hdata]
  have hcontains : (("labels").data ++ ['.'] ++ X.data).contains '.' = true := by
    simp [List.contains_eq_any_beq]
  rw [if_pos hcontains]
  rw [List.append_assoc, List.singleton_append,
    afterFirstDot_nodot_append _ _ (by decide)]

theorem lookupB_filter_self {α : Type} (k : String) (values : List (String × α)) :
    lookupB k (values.filter (fun kv => kv.1 != k)) = none := by
  induction values with
  | nil => simp [lookupB]
  | cons p rest ih =>
    obtain ⟨k₂, v₂⟩ := p
    by_cases hk : k₂ = k
    · subst hk
      simpa using ih
    · rw [List.filter_cons]
      simp only [bne_iff_ne, ne_eq, hk, not_false_eq_true, decide_True, if_pos]
      unfold lookupB
      rw [if_neg (fun hh => hk hh.symm)]
      exact ih

theorem nodupKeys_of_sorted {α : Type} (m : List (String × α)) (hs : SortedMap m) :
    (m.map Prod.fst).Nodup := by
  unfold SortedMap at hs
  have := List.Pairwise.map Prod.fst (fun a b (h : a.1 < b.1) => ne_of_lt h) hs
  exact this

theorem toCamelCase_ne_of_dot (s t : String) (h : '.' ∈ t.data) : toCamelCase s ≠ t := by
  intro heq
  exact toCamelCase_no_dot s (heq ▸ h)

theorem dot_mem_append_data (p X : String) (h : '.' ∈ p.data) : '.' ∈ (p ++ X).data := by
  rw [String.data_append]
  exact List.mem_append_left _ h

theorem filter_ne_idem {α : Type} (p : α → Bool) (l : List α) :
    (l.filter p).filter p = l.filter p := by
  rw [List.filter_filter]
  simp

theorem startsWithKey_append (p X : String) : startsWithKey (p ++ X) p = true := by
  unfold startsWithKey
  rw [String.data_append, List.isPrefixOf_iff_prefix]
  exact List.prefix_append _ _

theorem startsWithKey_exists (k p : String) (h : startsWithKey k p = true) :
    ∃ X : String, k = p ++ X := by
  unfold startsWithKey at h
  rw [List.isPrefixOf_iff_prefix] at h
  obtain ⟨t, ht⟩ := h
  refine ⟨String.mk t, ?_⟩
  apply String.ext
  rw [String.data_append, ← ht]

theorem labels_not_http (X : String) :
    startsWithKey ("labels." ++ X) "http_request." = false := by
  unfold startsWithKey
  rw [String.data_append]
  rfl

theorem finishSrc_fold_http (l : List (String × JValue)) (acc : SrcOutput) :
    (l.foldl finishSrcStep acc).httpRequest
      = ((l.filter (fun kv => startsWithKey kv.1 "http_request.")).map
          (fun kv => (toCamelCase (splitn2Last kv.1), kv.2))).foldl
          (fun m kv => insertBTree kv.1 kv.2 m) acc.httpRequest := by
  induction l generalizing acc with
  | nil => rfl
  | cons p rest ih =>
    rw [List.foldl_cons, List.filter_cons]
    by_cases hc : startsWithKey p.1 "http_request." = true
    · rw [if_pos (by simpa using hc)]
      rw [List.map_cons, List.foldl_cons, ih]
      congr 1
      unfold finishSrcStep
      rw [if_pos hc]
    · rw [if_neg (by simpa using hc)]
      rw [ih]
      congr 1
      unfold finishSrcStep
      rw [if_neg hc]

theorem finishSrc_fold_top (l : List (String × JValue)) (acc : SrcOutput) :
    (l.foldl finishSrcStep acc).topLevel
      = acc.topLevel ++ (l.filter (fun kv => !startsWithKey kv.1 "http_request.")).map
          (fun kv => (toCamelCase kv.1, kv.2)) := by
  induction l generalizing acc with
  | nil => simp
  | cons p rest ih =>
    rw [List.foldl_cons, List.filter_cons]
    by_cases hc : startsWithKey p.1 "http_request." = true
    · rw [if_neg (by simp [hc])]
      rw [ih]
      congr 1
      unfold finishSrcStep
      rw [if_pos hc]
    · rw [if_pos (by simp [hc]), List.map_cons, ih]
      unfold finishSrcStep
      rw [if_neg hc]
      simp

theorem classify_fold_top (l : List (String × JValue)) (acc : FieldBuckets) :
    (l.foldl classifyStep acc).topLevel
      = acc.topLevel
        ++ (l.filter (fun kv =>
            !startsWithKey kv.1 "http_request." && !startsWithKey kv.1 "labels.")).map
          (fun kv => (toCamelCase kv.1, kv.2)) := by
  induction l generalizing acc with
  | nil => simp
  | cons p rest ih =>
    rw [List.foldl_cons, List.filter_cons]
    by_cases h1 : startsWithKey p.1 "http_request." = true
    · rw [if_neg (by simp [h1])]
      rw [ih]
      congr 1
      unfold classifyStep
      rw [if_pos h1]
    · by_cases h2 : startsWithKey p.1 "labels." = true
      · rw [if_neg (by simp [h2])]
        rw [ih]
        congr 1
        unfold classifyStep
        rw [if_neg h1, if_pos h2]
      · rw [if_pos (by simp [h1, h2]), List.map_cons, ih]
        unfold classifyStep
        rw [if_neg h1, if_neg h2]
        simp

theorem classify_fold_http (l : List (String × JValue)) (acc : FieldBuckets) :
    (l.foldl classifyStep acc).httpRequest
      = ((l.filter (fun kv => startsWithKey kv.1 "http_request.")).map
          (fun kv => (toCamelCase (splitn2Last kv.1), kv.2))).foldl
          (fun m kv => insertBTree kv.1 kv.2 m) acc.httpRequest := by
  induction l generalizing acc with
  | nil => rfl
  | cons p rest ih =>
    rw [List.foldl_cons, List.filter_cons]
    by_cases h1 : startsWithKey p.1 "http_request." = true
    · rw [if_pos (by simpa using h1), List.map_cons, List.foldl_cons, ih]
      congr 1
      unfold classifyStep
      rw [if_pos h1]
    · rw [if_neg (by simpa using h1), ih]
      congr 1
      unfold classifyStep
      rw [if_neg h1]
      by_cases h2 : startsWithKey p.1 "labels." = true
      · rw [if_pos h2]
      · rw [if_neg h2]

theorem classify_fold_labels (l : List (String × JValue)) (acc : FieldBuckets) :
    (l.foldl classifyStep acc).labels
      = ((l.filter (fun kv =>
          !startsWithKey kv.1 "http_request." && startsWithKey kv.1 "labels.")).map
          (fun kv => (splitn2Last kv.1, stringifyLabel kv.2))).foldl
          (fun m kv => insertBTree kv.1 kv.2 m) acc.labels := by
  induction l generalizing acc with
  | nil => rfl
  | cons p rest ih =>
    rw [List.foldl_cons, List.filter_cons]
    by_cases h1 : startsWithKey p.1 "http_request." = true
    · rw [if_neg (by simp [h1]), ih]
      congr 1
      unfold classifyStep
      rw [if_pos h1]
    · by_cases h2 : startsWithKey p.1 "labels." = true
      · rw [if_pos (by simp [h1, h2]), List.map_cons, List.foldl_cons, ih]
        congr 1
        unfold classifyStep
        rw [if_neg h1, if_pos h2]
      · rw [if_neg (by simp [h1, h2]), ih]
        congr 1
        unfold classifyStep
        rw [if_neg h1, if_neg h2]

theorem lastLookup_mem {α : Type} (k : String) (w : α) (l : List (String × α))
    (h : lastLookup k l = some w) : (k, w) ∈ l := by
  induction l with
  | nil => simp [lastLookup] at h
  | cons p rest ih =>
    obtain ⟨k₂, v₂⟩ := p
    rw [lastLookup_cons] at h
    rcases hcase : lastLookup k rest with _ | u <;> rw [hcase] at h <;> simp at h
    · obtain ⟨rfl, rfl⟩ := h
      exact List.mem_cons_self _ _
    · subst h
      exact List.mem_cons_of_mem _ (ih hcase)

theorem lastLookup_unique {α : Type} (k : String) (v : α) (l : List (String × α))
    (hmem : (k, v) ∈ l) (huniq : ∀ p ∈ l, p.1 = k → p.2 = v) :
    lastLookup k l = some v := by
  induction l with
  | nil => simp at hmem
  | cons p rest ih =>
    obtain ⟨k₂, v₂⟩ := p
    rw [lastLookup_cons]
    rcases hcase : lastLookup k rest with _ | u
    · rcases List.mem_cons.mp hmem with heq | hmem₂
      · rw [Prod.mk.injEq] at heq
        obtain ⟨rfl, rfl⟩ := heq
        simp
      · have := lastLookup_mem k v rest
        rw [ih hmem₂ (fun p hp h => huniq p (List.mem_cons_of_mem _ hp) h)] at hcase
        simp at hcase
    · have hmemu := lastLookup_mem k u rest hcase
      have : u = v := huniq (k, u) (List.mem_cons_of_mem _ hmemu) rfl
      subst this
      rfl

theorem lookupB_emittedObject (k : String) (entries : List (String × JValue)) :
    lookupB k (emittedObject entries) = lastLookup k entries := by
  have h := lookupB_foldl_insert (fun v : JValue => v) k entries []
  rcases hcase : lastLookup k entries with _ | w <;> rw [hcase] at h <;>
    simp only [lookupB] at h <;> exact h

theorem sortedMap_emittedObject (entries : List (String × JValue)) :
    SortedMap (emittedObject entries) :=
  sortedMap_foldl_insert (fun v : JValue => v) entries [] List.Pairwise.nil

/-- C4: for every event, the keys of the emitted top-level JSON object (the
object the emitted entry stream denotes under JSON last-wins duplicate-key
parsing) are pairwise distinct, and each key maps to the value of the last
entry emitted for it, i.e. the later of any two raw fields normalizing to
the same output key per inspection order. -/
theorem emitted_object_keys_distinct (recorded : List (String × FieldValue)) :
    ((emittedObject (emitSrc (finishSrc (visitorMap recorded)))).map Prod.fst).Nodup
    ∧ ∀ (k : String) (v : JValue),
      ((k, v) ∈ emittedObject (emitSrc (finishSrc (visitorMap recorded)))
        ↔ lastLookup k (emitSrc (finishSrc (visitorMap recorded))) = some v) := by
  constructor
  · exact nodupKeys_of_sorted _ (sortedMap_emittedObject _)
  · intro k v
    rw [← lookupB_emittedObject]
    constructor
    · exact mem_lookupB k v _ (sortedMap_emittedObject _)
    · exact lookupB_mem k v _

/-- C10: event-field classification is insensitive to recording order for
distinct raw keys — permuted recordings with no duplicate raw key produce
the same accumulated map, hence identical classified output, and the map
holds its raw keys in strictly ascending lexicographic order. -/
theorem classification_order_insensitive (l₁ l₂ : List (String × FieldValue))
    (hperm : l₁.Perm l₂) (hnd : (l₁.map Prod.fst).Nodup) :
    visitorMap l₁ = visitorMap l₂
    ∧ emitSrc (finishSrc (visitorMap l₁)) = emitSrc (finishSrc (visitorMap l₂))
    ∧ SortedMap (visitorMap l₁) := by
  have hmap : visitorMap l₁ = visitorMap l₂ := by
    unfold visitorMap
    refine hperm.foldl_eq' ?_ []
    intro x hx y hy z
    by_cases hxy : x = y
    · subst hxy
      rfl
    · have hne : y.1 ≠ x.1 := by
        intro h1
        exact hxy (List.inj_on_of_nodup_map hnd hx hy h1.symm)
      exact insertBTree_comm y.1 x.1 y.2.toJson x.2.toJson z hne
  exact ⟨hmap, by rw [hmap], sortedMap_foldl_insert FieldValue.toJson l₁ [] List.Pairwise.nil⟩

/-- Witness for C10 at a concrete two-field permutation. -/
theorem classification_order_insensitive_witness :
    visitorMap [("b", FieldValue.str "1"), ("a", FieldValue.str "2")]
      = visitorMap [("a", FieldValue.str "2"), ("b", FieldValue.str "1")] :=
  (classification_order_insensitive _ _
    (List.Perm.swap ("a", FieldValue.str "2") ("b", FieldValue.str "1") [])
    (by decide)).1

/-- C7: for every span whose pre-rendered field buffer parses as a JSON
object, the span serializer emits each parsed key/value pair verbatim in
the parsed order and then appends a `name` entry with the span's own name,
so `name` is always the last key of the emitted span object. -/
theorem span_serialize_name_last (fields : List (String × JValue)) (name : String) :
    spanSerialize (JValue.obj fields) name = some (fields ++ [("name", JValue.str name)])
    ∧ (fields ++ [("name", JValue.str name)]).getLast? = some ("name", JValue.str name)
    ∧ (fields ++ [("name", JValue.str name)]).map Prod.fst = fields.map Prod.fst ++ ["name"]
    ∧ (fields ++ [("name", JValue.str name)]).take fields.length = fields := by
  refine ⟨rfl, ?_, by simp, by simp⟩
  rw [List.getLast?_concat]

/-- C9: `WriteAdaptor::write` forwards a valid UTF-8 buffer to the inner
`fmt::Write` and returns `Ok` with the full buffer length; an invalid
buffer produces an `InvalidData` error with nothing written to the inner
writer. -/
theorem write_adaptor_utf8 (inner buf : List UInt8) :
    (utf8Valid buf = true →
      writeAdaptorWrite inner buf = ⟨inner ++ buf, Except.ok buf.length⟩)
    ∧ (utf8Valid buf = false →
      writeAdaptorWrite inner buf = ⟨inner, Except.error IoErrorKind.invalidData⟩) := by
  constructor <;> intro h <;> simp [writeAdaptorWrite, h]

/-- Witness for C9 at a concrete valid buffer (`"hi"`) and a concrete
invalid buffer (a lone `0xFF` byte). -/
theorem write_adaptor_utf8_witness :
    writeAdaptorWrite [] [104, 105] = ⟨[104, 105], Except.ok 2⟩
    ∧ writeAdaptorWrite [32] [255] = ⟨[32], Except.error IoErrorKind.invalidData⟩ :=
  ⟨(write_adaptor_utf8 [] [104, 105]).1 (by decide),
    (write_adaptor_utf8 [32] [255]).2 (by decide)⟩

/-- C8: parsing a free-text severity override is total and never fails —
matching is case-insensitive, the recognized names map to their severities,
every other string yields `Default`, and the error type is uninhabited. -/
theorem severity_from_str_total :
    (∀ _e : Infallible, False)
    ∧ (∀ s : String, ∃ v, LogSeverity.fromStr s = Except.ok v)
    ∧ (∀ s t : String, lowerString s = lowerString t →
        LogSeverity.fromStr s = LogSeverity.fromStr t)
    ∧ (∀ s, lowerString s = "debug" ∨ lowerString s = "trace" →
        LogSeverity.fromStr s = Except.ok LogSeverity.Debug)
    ∧ (∀ s, lowerString s = "info" → LogSeverity.fromStr s = Except.ok LogSeverity.Info)
    ∧ (∀ s, lowerString s = "notice" → LogSeverity.fromStr s = Except.ok LogSeverity.Notice)
    ∧ (∀ s, lowerString s = "warn" ∨ lowerString s = "warning" →
        LogSeverity.fromStr s = Except.ok LogSeverity.Warning)
    ∧ (∀ s, lowerString s = "error" → LogSeverity.fromStr s = Except.ok LogSeverity.Error)
    ∧ (∀ s, lowerString s = "critical" →
        LogSeverity.fromStr s = Except.ok LogSeverity.Critical)
    ∧ (∀ s, lowerString s = "alert" → LogSeverity.fromStr s = Except.ok LogSeverity.Alert)
    ∧ (∀ s, lowerString s = "emergency" →
        LogSeverity.fromStr s = Except.ok LogSeverity.Emergency)
    ∧ (∀ s, lowerString s ∉ (["debug", "trace", "info", "notice", "warn", "warning",
        "error", "critical", "alert", "emergency"] : List String) →
        LogSeverity.fromStr s = Except.ok LogSeverity.Default) := by
  refine ⟨?_, ?_, ?_, ?_, ?_, ?_, ?_, ?_, ?_, ?_, ?_, ?_⟩
  · exact fun e => nomatch e
  · exact fun s => ⟨_, rfl⟩
  · intro s t h
    unfold LogSeverity.fromStr
    rw [h]
  all_goals intro s h
  · rcases h with h | h <;> unfold LogSeverity.fromStr <;> rw [h] <;> rfl
  · unfold LogSeverity.fromStr
    rw [h]
    rfl
  · unfold LogSeverity.fromStr
    rw [h]
    rfl
  · rcases h with h | h <;> unfold LogSeverity.fromStr <;> rw [h] <;> rfl
  · unfold LogSeverity.fromStr
    rw [h]
    rfl
  · unfold LogSeverity.fromStr
    rw [h]
    rfl
  · unfold LogSeverity.fromStr
    rw [h]
    rfl
  · unfold LogSeverity.fromStr
    rw [h]
    rfl
  · unfold LogSeverity.fromStr
    simp only [List.mem_cons, List.not_mem_nil, or_false, not_or] at h
    obtain ⟨h1, h2, h3, h4, h5, h6, h7, h8, h9, h10⟩ := h
    unfold severityName
    split
    · rename_i heq
      exact absurd heq h1
    · rename_i heq
      exact absurd heq h2
    · rename_i heq
      exact absurd heq h3
    · rename_i heq
      exact absurd heq h4
    · rename_i heq
      exact absurd heq h5
    · rename_i heq
      exact absurd heq h6
    · rename_i heq
      exact absurd heq h7
    · rename_i heq
      exact absurd heq h8
    · rename_i heq
      exact absurd heq h9
    · rename_i heq
      exact absurd heq h10
    · rfl

/-- Witness for C8 at concrete strings: mixed-case recognized names and an
unrecognized name. -/
theorem severity_from_str_total_witness :
    LogSeverity.fromStr "DeBuG" = Except.ok LogSeverity.Debug
    ∧ LogSeverity.fromStr "WARNING" = Except.ok LogSeverity.Warning
    ∧ LogSeverity.fromStr "Notice" = Except.ok LogSeverity.Notice
    ∧ LogSeverity.fromStr "bogus" = Except.ok LogSeverity.Default :=
  ⟨(severity_from_str_total.2.2.2.1 "DeBuG" (Or.inl (by decide))),
    (severity_from_str_total.2.2.2.2.2.2.1 "WARNING" (Or.inr (by decide))),
    (severity_from_str_total.2.2.2.2.2.1 "Notice" (by decide)),
    (severity_from_str_total.2.2.2.2.2.2.2.2.2.2.2 "bogus" (by decide))⟩

/-- C2 (spec-modelled emission): for every event with no field named
`severity`, the resolved and emitted severity equals the direct level
mapping — Debug/Trace to DEBUG, Info to INFO, Warn to WARNING, Error to
ERROR — and no level maps directly to Notice, Critical, Alert, Emergency,
or Default. -/
theorem severity_from_level (level : Level) (values : List (String × JValue))
    (h : lookupB "severity" values = none) :
    (classifyFields (LogSeverity.fromLevel level) values).severity = LogSeverity.fromLevel level
    ∧ (emitClassified (classifyFields (LogSeverity.fromLevel level) values)).head?
        = some ("severity", JValue.str (LogSeverity.fromLevel level).serialized)
    ∧ (LogSeverity.fromLevel Level.debug = LogSeverity.Debug
        ∧ LogSeverity.fromLevel Level.trace = LogSeverity.Debug
        ∧ LogSeverity.fromLevel Level.info = LogSeverity.Info
        ∧ LogSeverity.fromLevel Level.warn = LogSeverity.Warning
        ∧ LogSeverity.fromLevel Level.error = LogSeverity.Error)
    ∧ (LogSeverity.Debug.serialized = "DEBUG" ∧ LogSeverity.Info.serialized = "INFO"
        ∧ LogSeverity.Warning.serialized = "WARNING"
        ∧ LogSeverity.Error.serialized = "ERROR")
    ∧ ∀ l : Level, LogSeverity.fromLevel l ≠ LogSeverity.Notice
        ∧ LogSeverity.fromLevel l ≠ LogSeverity.Critical
        ∧ LogSeverity.fromLevel l ≠ LogSeverity.Alert
        ∧ LogSeverity.fromLevel l ≠ LogSeverity.Emergency
        ∧ LogSeverity.fromLevel l ≠ LogSeverity.Default := by
  have hsev : (classifyFields (LogSeverity.fromLevel level) values).severity
      = LogSeverity.fromLevel level := by
    unfold classifyFields resolveSeverity
    rw [h]
  refine ⟨hsev, by simp [emitClassified, hsev], by decide, by decide, ?_⟩
  intro l
  cases l <;> decide

/-- Witness for C2 at a concrete Info-level event with no fields. -/
theorem severity_from_level_witness :
    (classifyFields (LogSeverity.fromLevel Level.info) []).severity
      = LogSeverity.fromLevel Level.info
    ∧ (LogSeverity.fromLevel Level.info).serialized = "INFO" :=
  ⟨(severity_from_level Level.info [] rfl).1, rfl⟩

/-- C1 (spec-modelled): for every event whose fields include a key named
`severity`, the emitted severity equals the parsed override of that field's
value, and the field is removed from the generically classified field set
(the emitted buckets equal those of the field set with the `severity` key
filtered out, which no longer contains any `severity` key). -/
theorem severity_override (lvl : LogSeverity) (values : List (String × JValue)) (v : JValue)
    (h : lookupB "severity" values = some v) :
    (classifyFields lvl values).severity = severityOfValue v
    ∧ (emitClassified (classifyFields lvl values)).head?
        = some ("severity", JValue.str (severityOfValue v).serialized)
    ∧ (classifyFields lvl values).buckets
        = classifyBuckets (values.filter (fun kv => kv.1 != "severity"))
    ∧ lookupB "severity" (values.filter (fun kv => kv.1 != "severity")) = none := by
  have hsev : (classifyFields lvl values).severity = severityOfValue v := by
    unfold classifyFields resolveSeverity
    rw [h]
  refine ⟨hsev, by simp [emitClassified, hsev], ?_, lookupB_filter_self _ _⟩
  show classifyBuckets values = classifyBuckets (values.filter (fun kv => kv.1 != "severity"))
  unfold classifyBuckets
  rw [filter_ne_idem]

/-- Witness for C1 at a concrete event carrying `severity = "notice"`. -/
theorem severity_override_witness :
    (classifyFields LogSeverity.Info [("severity", JValue.str "notice")]).severity
      = severityOfValue (JValue.str "notice")
    ∧ severityOfValue (JValue.str "notice") = LogSeverity.Notice :=
  ⟨(severity_override LogSeverity.Info [("severity", JValue.str "notice")]
      (JValue.str "notice") rfl).1, rfl⟩

/-- C6: with trace integration enabled and a current span present, the
`logging.googleapis.com/trace` entry is emitted iff both a trace id (the
active remote parent context's when one exists, else the builder fallback)
and a configured project id are available, with value exactly
`projects/<project_id>/traces/<trace_id>`; `trace_sampled` is emitted only
with value `true`, never as `false`. -/
theorem trace_entries_spec (pid : Option String) (o : OtelData) :
    ((∃ v, ("logging.googleapis.com/trace", v) ∈ traceEntries pid o)
      ↔ ((selectTrace o).1.isSome ∧ pid.isSome))
    ∧ (∀ t p, (selectTrace o).1 = some t → pid = some p →
        ("logging.googleapis.com/trace",
          JValue.str ("projects/" ++ p ++ "/traces/" ++ t)) ∈ traceEntries pid o)
    ∧ (∀ v, ("logging.googleapis.com/trace_sampled", v) ∈ traceEntries pid o →
        v = JValue.bool true)
    ∧ selectTrace o
        = if o.parentHasActiveSpan then (some o.parentTraceId, o.parentSampled)
          else (o.builderTraceId, false) := by
  obtain ⟨bsid, btid, phas, ptid, psamp⟩ := o
  refine ⟨?_, ?_, ?_, rfl⟩
  · cases bsid <;> cases btid <;> cases phas <;> cases psamp <;> cases pid <;>
      simp [traceEntries, selectTrace]
  · intro t p ht hp
    subst hp
    cases bsid <;> cases btid <;> cases phas <;> cases psamp <;>
      simp [selectTrace] at ht <;> (try subst ht) <;> simp [traceEntries, selectTrace]
  · intro v hv
    cases bsid <;> cases btid <;> cases phas <;> cases psamp <;> cases pid <;>
      simp [traceEntries, selectTrace] at hv <;> tauto

/-- Witness for C6: the sampled remote-parent scenario with project id
`my_project_123` yields the fixed resource-path value. -/
theorem trace_entries_spec_witness :
    ("logging.googleapis.com/trace",
      JValue.str "projects/my_project_123/traces/0af7651916cd43dd8448eb211c80319c")
      ∈ traceEntries (some "my_project_123")
        ⟨some "b7ad6b7169203331", none, true, "0af7651916cd43dd8448eb211c80319c", true⟩ :=
  (trace_entries_spec (some "my_project_123")
    ⟨some "b7ad6b7169203331", none, true, "0af7651916cd43dd8448eb211c80319c", true⟩).2.1
    "0af7651916cd43dd8448eb211c80319c" "my_project_123" rfl rfl

theorem lookupB_foldl_entries {α : Type} (k : String) (entries : List (String × α)) :
    lookupB k (entries.foldl (fun m kv => insertBTree kv.1 kv.2 m) []) = lastLookup k entries := by
  have h := lookupB_foldl_insert (fun v : α => v) k entries []
  rcases hcase : lastLookup k entries with _ | w <;> rw [hcase] at h <;>
    simp only [lookupB] at h <;> exact h

theorem nodup_mem_value_eq {α : Type} (l : List (String × α)) (k : String) (a b : α)
    (hnd : (l.map Prod.fst).Nodup) (h1 : (k, a) ∈ l) (h2 : (k, b) ∈ l) : a = b := by
  have := List.inj_on_of_nodup_map hnd h1 h2 rfl
  rw [Prod.mk.injEq] at this
  exact this.2

theorem ne_append_of_head_ne (a p X : String) (c₁ c₂ : Char) (ha : a.data.head? = some c₁)
    (hp : p.data.head? = some c₂) (hne : c₁ ≠ c₂) : a ≠ p ++ X := by
  intro h
  have hd := congrArg String.data h
  rw [String.data_append] at hd
  rw [hd] at ha
  cases hpd : p.data with
  | nil =>
    rw [hpd] at hp
    simp at hp
  | cons c rest =>
    rw [hpd] at ha hp
    simp at ha hp
    apply hne
    rw [← ha]
    exact hp

theorem ne_append_of_length_lt (a p X : String) (h : a.length < p.length) : a ≠ p ++ X := by
  intro he
  have hl := congrArg String.length he
  rw [String.length_append] at hl
  omega

/-- C5 (spec-modelled): every `labels.X` field lands in the `labels` object
under key `X` with its value rendered as a string (non-strings via their
display form), no emitted top-level key is named `labels.X`, and when no
`labels.*` field is supplied no `labels` object is emitted. -/
theorem labels_nesting :
    (∀ (lvl : LogSeverity) (values : List (String × JValue)) (X : String) (v : JValue),
      (values.map Prod.fst).Nodup →
      ("labels." ++ X, v) ∈ values →
      lookupB X (classifyFields lvl values).buckets.labels = some (stringifyLabel v)
      ∧ ∀ e ∈ emitClassified (classifyFields lvl values), e.1 ≠ "labels." ++ X)
    ∧ (∀ (lvl : LogSeverity) (values : List (String × JValue)),
      (∀ p ∈ values, startsWithKey p.1 "labels." = false) →
      labelsEntry (classifyFields lvl values) = none) := by
  constructor
  · intro lvl values X v hnd hmem
    have hkey_ne_sev : ("labels." ++ X) ≠ "severity" :=
      (ne_append_of_head_ne "severity" "labels." X 's' 'l' (by decide) (by decide)
        (by decide)).symm
    have hmem₁ : ("labels." ++ X, v) ∈ values.filter (fun kv => kv.1 != "severity") :=
      List.mem_filter.mpr ⟨hmem, by simp [hkey_ne_sev]⟩
    have hmem₂ : ("labels." ++ X, v)
        ∈ (values.filter (fun kv => kv.1 != "severity")).filter
          (fun kv => !startsWithKey kv.1 "http_request." && startsWithKey kv.1 "labels.") :=
      List.mem_filter.mpr ⟨hmem₁, by simp [labels_not_http, startsWithKey_append]⟩
    have hlab : (classifyFields lvl values).buckets.labels
        = (((values.filter (fun kv => kv.1 != "severity")).filter
            (fun kv => !startsWithKey kv.1 "http_request." && startsWithKey kv.1 "labels.")).map
            (fun kv => (splitn2Last kv.1, stringifyLabel kv.2))).foldl
            (fun m kv => insertBTree kv.1 kv.2 m) [] := by
      show (classifyBuckets values).labels = _
      unfold classifyBuckets
      rw [classify_fold_labels]
    constructor
    · rw [hlab, lookupB_foldl_entries]
      apply lastLookup_unique
      · exact List.mem_map.mpr ⟨("labels." ++ X, v), hmem₂, by rw [splitn2Last_labels]⟩
      · intro q hq hqX
        obtain ⟨p', hp', hgp⟩ := List.mem_map.mp hq
        obtain ⟨hp'f, hp'cond⟩ := List.mem_filter.mp hp'
        obtain ⟨hp'v, _⟩ := List.mem_filter.mp hp'f
        have hlabtrue : startsWithKey p'.1 "labels." = true := by
          simp only [Bool.and_eq_true] at hp'cond
          exact hp'cond.2
        obtain ⟨X', hX'⟩ := startsWithKey_exists p'.1 "labels." hlabtrue
        have hq1 : q.1 = X' := by
          rw [← hgp, hX', splitn2Last_labels]
        have hXX : X' = X := hq1 ▸ hqX
        have hkeq : p'.1 = "labels." ++ X := by
          rw [hX', hXX]
        have hval : p'.2 = v := by
          refine nodup_mem_value_eq values ("labels." ++ X) p'.2 v hnd ?_ hmem
          rw [← hkeq]
          exact hp'v
        rw [← hgp]
        simp [hval]
    · intro e he
      unfold emitClassified at he
      rcases List.mem_cons.mp he with heq | he
      · rw [heq]
        exact ne_append_of_head_ne "severity" "labels." X 's' 'l' (by decide) (by decide)
          (by decide)
      · rcases List.mem_append.mp he with he | he
        · rcases List.mem_append.mp he with he | he
          · have htop : (classifyFields lvl values).buckets.topLevel
                = ((values.filter (fun kv => kv.1 != "severity")).filter
                  (fun kv => !startsWithKey kv.1 "http_request."
                    && !startsWithKey kv.1 "labels.")).map
                  (fun kv => (toCamelCase kv.1, kv.2)) := by
              show (classifyBuckets values).topLevel = _
              unfold classifyBuckets
              rw [classify_fold_top]
              rfl
            rw [htop] at he
            obtain ⟨p', _, hgp⟩ := List.mem_map.mp he
            rw [← hgp]
            exact toCamelCase_ne_of_dot p'.1 _
              (dot_mem_append_data "labels." X (by decide))
          · unfold httpEntry at he
            split at he <;> simp at he
            rw [he]
            exact ne_append_of_head_ne "httpRequest" "labels." X 'h' 'l' (by decide)
              (by decide) (by decide)
        · unfold labelsEntry at he
          split at he <;> simp at he
          rw [he]
          exact ne_append_of_length_lt "labels" "labels." X (by decide)
  · intro lvl values hnone
    have hlab : (classifyFields lvl values).buckets.labels = [] := by
      show (classifyBuckets values).labels = _
      unfold classifyBuckets
      rw [classify_fold_labels]
      have hfe : (values.filter (fun kv => kv.1 != "severity")).filter
          (fun kv => !startsWithKey kv.1 "http_request." && startsWithKey kv.1 "labels.")
          = [] := by
        rw [List.filter_eq_nil_iff]
        intro p hp
        have := hnone p (List.mem_filter.mp hp).1
        simp [this]
      rw [hfe]
      rfl
    unfold labelsEntry
    rw [hlab]
    rfl

/-- Witness for C5 at a concrete event with one `labels.foo` field and one
without any `labels.*` field. -/
theorem labels_nesting_witness :
    lookupB "foo"
      (classifyFields LogSeverity.Info [("labels.foo", JValue.str "bar")]).buckets.labels
      = some (stringifyLabel (JValue.str "bar"))
    ∧ labelsEntry (classifyFields LogSeverity.Info [("message", JValue.str "hi")]) = none := by
  constructor
  · exact (labels_nesting.1 LogSeverity.Info [("labels.foo", JValue.str "bar")] "foo"
      (JValue.str "bar") (by decide) (by simp [show ("labels." ++ "foo" : String) = "labels.foo" from rfl])).1
  · exact labels_nesting.2 LogSeverity.Info [("message", JValue.str "hi")]
      (by intro p hp; simp at hp; subst hp; decide)

/-- Counterexample to C3 as stated: the fields `http_request.fooBar = "b"`
and `http_request.foo_bar = "a"` normalize to the same nested key
`fooBar`; the emitted `httpRequest` object binds `fooBar` to `"a"` (the
later raw key in map order), not to the `http_request.fooBar` field's own
value `"b"`. -/
theorem http_request_collision_cex :
    (("http_request.fooBar", FieldValue.str "b")
        ∈ [("http_request.fooBar", FieldValue.str "b"),
          ("http_request.foo_bar", FieldValue.str "a")])
    ∧ toCamelCase "fooBar" = toCamelCase "foo_bar"
    ∧ lookupB (toCamelCase "fooBar")
        (finishSrc (visitorMap
          [("http_request.fooBar", FieldValue.str "b"),
            ("http_request.foo_bar", FieldValue.str "a")])).httpRequest
        = some (JValue.str "a")
    ∧ lookupB (toCamelCase "fooBar")
        (finishSrc (visitorMap
          [("http_request.fooBar", FieldValue.str "b"),
            ("http_request.foo_bar", FieldValue.str "a")])).httpRequest
        ≠ some (JValue.str "b") := by
  have hlt : ¬ ("http_request.foo_bar" : String) < "http_request.fooBar" := by
    rw [String.lt_iff_toList_lt]
    decide
  have hne : ("http_request.foo_bar" : String) ≠ "http_request.fooBar" := by decide
  have hmap : visitorMap
      [("http_request.fooBar", FieldValue.str "b"),
        ("http_request.foo_bar", FieldValue.str "a")]
      = [("http_request.fooBar", JValue.str "b"),
        ("http_request.foo_bar", JValue.str "a")] := by
    simp [visitorMap, insertBTree, FieldValue.toJson, hlt, hne]
  have hcamel1 : toCamelCase (splitn2Last "http_request.fooBar") = "fooBar" := by decide
  have hcamel2 : toCamelCase (splitn2Last "http_request.foo_bar") = "fooBar" := by decide
  have hsw1 : startsWithKey "http_request.fooBar" "http_request." = true := by decide
  have hsw2 : startsWithKey "http_request.foo_bar" "http_request." = true := by decide
  have hfin : (finishSrc [("http_request.fooBar", JValue.str "b"),
      ("http_request.foo_bar", JValue.str "a")]).httpRequest
      = [("fooBar", JValue.str "a")] := by
    simp [finishSrc, finishSrcStep, hsw1, hsw2, hcamel1, hcamel2, insertBTree, lt_irrefl]
  have hcf : toCamelCase "fooBar" = "fooBar" := by decide
  refine ⟨List.mem_cons_self _ _, by decide, ?_, ?_⟩
  · rw [hmap, hfin, hcf]
    simp [lookupB]
  · rw [hmap, hfin, hcf]
    simp [lookupB]

/-- C3 as amended: every `http_request.X` field lands in the nested
`httpRequest` object under key `camelCase(X)`; its value is the field's own
value provided no other `http_request.*` field normalizes to the same
nested key (otherwise the later raw key per map order wins — see the
counterexample); no emitted key is named `http_request.X` or
`httpRequest.X`; and the `httpRequest` entry is absent when no
`http_request.*` field is supplied. -/
theorem http_request_nesting :
    (∀ (values : List (String × JValue)) (X : String) (v : JValue),
      (values.map Prod.fst).Nodup →
      ("http_request." ++ X, v) ∈ values →
      (∀ p ∈ values, startsWithKey p.1 "http_request." = true →
        p.1 ≠ "http_request." ++ X → toCamelCase (splitn2Last p.1) ≠ toCamelCase X) →
      lookupB (toCamelCase X) (finishSrc values).httpRequest = some v
      ∧ ∀ e ∈ emitSrc (finishSrc values),
          e.1 ≠ "http_request." ++ X ∧ e.1 ≠ "httpRequest." ++ X)
    ∧ (∀ values : List (String × JValue),
      (∀ p ∈ values, startsWithKey p.1 "http_request." = false) →
      httpEntrySrc (finishSrc values) = none) := by
  constructor
  · intro values X v hnd hmem hdist
    have hbk : (finishSrc values).httpRequest
        = ((values.filter (fun kv => startsWithKey kv.1 "http_request.")).map
          (fun kv => (toCamelCase (splitn2Last kv.1), kv.2))).foldl
          (fun m kv => insertBTree kv.1 kv.2 m) [] := by
      unfold finishSrc
      rw [finishSrc_fold_http]
    have hmem₁ : ("http_request." ++ X, v)
        ∈ values.filter (fun kv => startsWithKey kv.1 "http_request.") :=
      List.mem_filter.mpr ⟨hmem, by simp [startsWithKey_append]⟩
    constructor
    · rw [hbk, lookupB_foldl_entries]
      apply lastLookup_unique
      · exact List.mem_map.mpr ⟨("http_request." ++ X, v), hmem₁, by rw [splitn2Last_http]⟩
      · intro q hq hqX
        obtain ⟨p', hp', hgp⟩ := List.mem_map.mp hq
        obtain ⟨hp'v, hp'cond⟩ := List.mem_filter.mp hp'
        have hsw : startsWithKey p'.1 "http_request." = true := by simpa using hp'cond
        by_cases hk : p'.1 = "http_request." ++ X
        · have hval : p'.2 = v := by
            refine nodup_mem_value_eq values ("http_request." ++ X) p'.2 v hnd ?_ hmem
            rw [← hk]
            exact hp'v
          rw [← hgp]
          simp [hval]
        · exfalso
          apply hdist p' hp'v hsw hk
          rw [← hgp] at hqX
          exact hqX
    · intro e he
      unfold emitSrc at he
      rcases List.mem_append.mp he with he | he
      · have htop : (finishSrc values).topLevel
            = (values.filter (fun kv => !startsWithKey kv.1 "http_request.")).map
              (fun kv => (toCamelCase kv.1, kv.2)) := by
          unfold finishSrc
          rw [finishSrc_fold_top]
          rfl
        rw [htop] at he
        obtain ⟨p', _, hgp⟩ := List.mem_map.mp he
        rw [← hgp]
        constructor
        · exact toCamelCase_ne_of_dot p'.1 _
            (dot_mem_append_data "http_request." X (by decide))
        · exact toCamelCase_ne_of_dot p'.1 _
            (dot_mem_append_data "httpRequest." X (by decide))
      · unfold httpEntrySrc at he
        split at he <;> simp at he
        rw [he]
        constructor
        · exact ne_append_of_length_lt "httpRequest" "http_request." X (by decide)
        · exact ne_append_of_length_lt "httpRequest" "httpRequest." X (by decide)
  · intro values hnone
    have hbk : (finishSrc values).httpRequest = [] := by
      unfold finishSrc
      rw [finishSrc_fold_http]
      have hfe : values.filter (fun kv => startsWithKey kv.1 "http_request.") = [] := by
        rw [List.filter_eq_nil_iff]
        intro p hp
        simp [hnone p hp]
      rw [hfe]
      rfl
    unfold httpEntrySrc
    rw [hbk]
    rfl

/-- Witness for C3 (amended) at a concrete event with one
`http_request.request_method` field and one without any `http_request.*`
field. -/
theorem http_request_nesting_witness :
    lookupB (toCamelCase "request_method")
      (finishSrc [("http_request.request_method", JValue.str "GET")]).httpRequest
      = some (JValue.str "GET")
    ∧ httpEntrySrc (finishSrc [("message", JValue.str "hi")]) = none := by
  constructor
  · have hkey : ("http_request." ++ "request_method" : String)
        = "http_request.request_method" := by decide
    refine (http_request_nesting.1 [("http_request.request_method", JValue.str "GET")]
      "request_method" (JValue.str "GET") (by decide) ?_ ?_).1
    · rw [hkey]
      exact List.mem_cons_self _ _
    · intro p hp hsw hne
      simp at hp
      exact absurd (by rw [hp, hkey]) hne
  · exact http_request_nesting.2 [("message", JValue.str "hi")]
      (by intro p hp; simp at hp; subst hp; decide)
